import Mathlib

/-!
Verification of the backtesting core of the Bitcoin_Trading repository:
the `Portfolio` ledger (`backtesting/portfolio.py`), the performance
metrics (`backtesting/performance_metrics.py`) and the signal-execution
loop of the backtest engine (`backtesting/backtest_engine.py`).

Real-valued quantities of the Python code (cash, prices, quantities,
commission rates, equity) are embedded as rationals `ℚ`; Python dicts
keyed by symbol are embedded as association lists with first-key lookup
and in-place first-key update, matching dict get/set semantics.
Timestamps play no computational role and are embedded as `Nat`.
-/

/-- A trade record, as appended to `Portfolio.trades` by
`Portfolio.execute_trade` (portfolio.py lines 69-78). -/
structure Trade where
  timestamp : Nat
  symbol : String
  side : String
  price : ℚ
  quantity : ℚ
  commission : ℚ
  cash : ℚ
  deriving Repr, DecidableEq

/-- An equity-curve point, as appended by `Portfolio.record_equity`
(portfolio.py lines 119-124). -/
structure EquityPoint where
  timestamp : Nat
  equity : ℚ
  cash : ℚ
  positions_value : ℚ
  deriving Repr, DecidableEq

/-- The `Portfolio` state (portfolio.py lines 29-34): initial capital,
current cash, commission rate, per-symbol positions, trade log and the
recorded equity curve. -/
structure Portfolio where
  initial_capital : ℚ
  cash : ℚ
  commission_rate : ℚ
  positions : List (String × ℚ)
  trades : List Trade
  equity_curve : List EquityPoint
  deriving Repr, DecidableEq

/-- Python `positions.get(symbol, 0)`: value at the first matching key,
`0` when the key is absent. -/
def posGet : List (String × ℚ) → String → ℚ
  | [], _ => 0
  | (k, v) :: rest, s => if k = s then v else posGet rest s

/-- Python `positions[symbol] = q`: overwrite the first matching key,
append the binding when the key is absent. -/
def posSet : List (String × ℚ) → String → ℚ → List (String × ℚ)
  | [], s, q => [(s, q)]
  | (k, v) :: rest, s, q => if k = s then (k, q) :: rest else (k, v) :: posSet rest s q

/-- `Portfolio.__init__` (portfolio.py lines 21-34): cash starts at the
initial capital, positions empty, empty trade log and equity curve. -/
def mkPortfolio (initial_capital commission_rate : ℚ) : Portfolio :=
  { initial_capital := initial_capital
    cash := initial_capital
    commission_rate := commission_rate
    positions := []
    trades := []
    equity_curve := [] }

/-- `Portfolio.execute_trade` (portfolio.py lines 36-80).  Returns the
Python boolean result paired with the resulting portfolio state; a
rejected trade (`return False`) leaves the state untouched.  On every
path that reaches the end of the method a `Trade` record holding the
commission and the post-trade cash is appended and `True` is returned —
including the path where `side` is neither `'buy'` nor `'sell'`. -/
def Portfolio.execute_trade (p : Portfolio) (timestamp : Nat) (symbol : String)
    (side : String) (price quantity : ℚ) : Bool × Portfolio :=
  let trade_value := price * quantity
  let commission := trade_value * p.commission_rate
  let record : Portfolio → Portfolio := fun q =>
    { q with trades := q.trades ++
        [{ timestamp := timestamp, symbol := symbol, side := side, price := price,
           quantity := quantity, commission := commission, cash := q.cash }] }
  if side = "buy" then
    let total_cost := trade_value + commission
    if total_cost > p.cash then
      (false, p)
    else
      (true, record { p with
        cash := p.cash - total_cost
        positions := posSet p.positions symbol (posGet p.positions symbol + quantity) })
  else if side = "sell" then
    if posGet p.positions symbol < quantity then
      (false, p)
    else
      let total_proceeds := trade_value - commission
      (true, record { p with
        cash := p.cash + total_proceeds
        positions := posSet p.positions symbol (posGet p.positions symbol - quantity) })
  else
    (true, record p)

/-- `Portfolio.get_position` (portfolio.py line 92). -/
def Portfolio.get_position (p : Portfolio) (symbol : String) : ℚ :=
  posGet p.positions symbol

/-- The positions-value sum of `Portfolio.get_portfolio_value`
(portfolio.py lines 104-107): for each held symbol, quantity times the
price looked up in `current_prices` (0 when the symbol is absent). -/
def positionsValue : List (String × ℚ) → List (String × ℚ) → ℚ
  | [], _ => 0
  | (s, q) :: rest, current_prices =>
      q * posGet current_prices s + positionsValue rest current_prices

/-- `Portfolio.get_portfolio_value` (portfolio.py lines 94-108). -/
def Portfolio.get_portfolio_value (p : Portfolio)
    (current_prices : List (String × ℚ)) : ℚ :=
  p.cash + positionsValue p.positions current_prices

/-- `Portfolio.record_equity` (portfolio.py lines 110-124): append one
equity point valued at the supplied prices. -/
def Portfolio.record_equity (p : Portfolio) (timestamp : Nat)
    (current_prices : List (String × ℚ)) : Portfolio :=
  let portfolio_value := p.get_portfolio_value current_prices
  { p with equity_curve := p.equity_curve ++
      [{ timestamp := timestamp, equity := portfolio_value, cash := p.cash,
         positions_value := portfolio_value - p.cash }] }

/-- A request to `execute_trade`, used to state properties of sequences
of calls against the ledger. -/
structure TradeReq where
  timestamp : Nat
  symbol : String
  side : String
  price : ℚ
  quantity : ℚ

/-- Run a sequence of `execute_trade` calls, each acting on the state
left by the previous one (the Python method mutates `self` on success
and leaves it untouched on rejection). -/
def applyTrades (p : Portfolio) : List TradeReq → Portfolio
  | [] => p
  | r :: rs => applyTrades (p.execute_trade r.timestamp r.symbol r.side r.price r.quantity).2 rs

/-- The conditions of claim C3 on a single trade request. -/
def TradeReq.wellFormed (r : TradeReq) : Prop :=
  (r.side = "buy" ∨ r.side = "sell") ∧ 0 < r.price ∧ 0 < r.quantity

/- ### The backtest engine's execution loop (backtest_engine.py lines 81-123) -/

/-- One row of the signal series produced by the strategy contract
(base_strategy.py lines 49-64): one signal per market-data row. -/
structure SignalRow where
  timestamp : Nat
  signal : Int
  price : ℚ
  size : ℚ
  deriving Repr, DecidableEq

/-- One market-data row as consumed by the engine's equity recording
(backtest_engine.py lines 119-123). -/
structure MarketRow where
  timestamp : Nat
  price : ℚ
  deriving Repr, DecidableEq

/-- The signal-handling step of `BacktestEngine.run` (backtest_engine.py
lines 82-117): a buy signal submits a buy of `size`; a sell signal is
submitted only when the current position is positive, with quantity
`min(size, current_position)`; other signal values do nothing.  The fill
notification `on_order_filled` goes to the strategy and does not touch
the portfolio, so it has no counterpart in the state. -/
def processSignal (symbol : String) (p : Portfolio) (row : SignalRow) : Portfolio :=
  if row.signal ≠ 0 then
    let current_position := p.get_position symbol
    if row.signal = 1 then
      (p.execute_trade row.timestamp symbol "buy" row.price row.size).2
    else if row.signal = -1 then
      if current_position > 0 then
        (p.execute_trade row.timestamp symbol "sell" row.price
          (min row.size current_position)).2
      else p
    else p
  else p

/-- The per-row body of `BacktestEngine.run` (lines 81-123): handle the
signal, then record one equity snapshot provided the row index is a
valid index of the loaded data (`if idx in self.data.index`; after
`load_data`'s `reset_index` the data index is `0..n-1`), pricing the
single traded symbol at that row's price. -/
def runRow (symbol : String) (data : List MarketRow) (p : Portfolio)
    (idx : Nat) (row : SignalRow) : Portfolio :=
  let p1 := processSignal symbol p row
  match data.get? idx with
  | some d => p1.record_equity d.timestamp [(symbol, d.price)]
  | none => p1

/-- The execution loop of `BacktestEngine.run`: fold `runRow` over the
signal series, `idx` being the positional index of the current row. -/
def runLoop (symbol : String) (data : List MarketRow) :
    Portfolio → Nat → List SignalRow → Portfolio
  | p, _, [] => p
  | p, idx, row :: rest =>
      runLoop symbol data (runRow symbol data p idx row) (idx + 1) rest

/- ### The metrics engine (performance_metrics.py) -/

/-- `Series.min` of a nonempty series as a fold; 0 for the empty list
(pandas would give NaN, which the code never compares). -/
def listMin : List ℚ → ℚ
  | [] => 0
  | x :: xs => xs.foldl min x

/-- `Series.max` of a nonempty series as a fold; 0 for the empty list. -/
def listMax : List ℚ → ℚ
  | [] => 0
  | x :: xs => xs.foldl max x

/-- Tail worker of `expanding().max()`: the running maximum of the list
continued from an already-accumulated maximum `m`. -/
def runMaxAux (m : ℚ) : List ℚ → List ℚ
  | [] => []
  | x :: xs => max m x :: runMaxAux (max m x) xs

/-- `equity_curve['equity'].expanding().max()` (performance_metrics.py
line 63): the running maximum of the equity series. -/
def runningMax : List ℚ → List ℚ
  | [] => []
  | x :: xs => x :: runMaxAux x xs

/-- `Series.idxmin`/`idxmax` on a positionally indexed series: the index
of the first occurrence of the value `a` (list length when absent). -/
def firstIdx (a : ℚ) : List ℚ → Nat
  | [] => 0
  | x :: xs => if x = a then 0 else firstIdx a xs + 1

/-- `PerformanceMetrics.calculate_max_drawdown` (performance_metrics.py
lines 49-80) over the list of equity values: returns the pair
(max_drawdown, max_drawdown_duration).  The `pd.isna(max_drawdown_idx)`
branch cannot trigger over exact rationals and has no counterpart. -/
def calculate_max_drawdown (equity : List ℚ) : ℚ × Nat :=
  if equity.isEmpty then (0, 0)
  else
    let cumulative_max := runningMax equity
    let drawdown := List.zipWith (fun e m => (e - m) / m) equity cumulative_max
    let max_drawdown := listMin drawdown
    let max_drawdown_idx := firstIdx max_drawdown drawdown
    let upToTrough := equity.take (max_drawdown_idx + 1)
    let peak_idx := firstIdx (listMax upToTrough) upToTrough
    (max_drawdown, max_drawdown_idx - peak_idx)

/-- Spec-side formulation for claim C4: the running maximum of the
equity series up to and including index `i` (maximum of the first `i+1`
values), written independently of `runningMax`. -/
def cumMaxAt (equity : List ℚ) (i : Nat) : ℚ := listMax (equity.take (i + 1))

/-- Spec-side formulation for claim C4: the drawdown at index `i`,
`(equity − running_max)/running_max`. -/
def ddAt (equity : List ℚ) (i : Nat) : ℚ :=
  (equity.getD i 0 - cumMaxAt equity i) / cumMaxAt equity i

/-- Tail worker of `Series.pct_change`: the percentage changes of a list
continued from the previous value `prev`, as NaN-aware series cells
(`some q` a finite value, `none` the pandas NaN).  A zero previous
equity makes the change non-finite in pandas; over exact rationals that
point follows the `x / 0 = 0` convention and no statement below depends
on it. -/
def pctChangeFrom : ℚ → List ℚ → List (Option ℚ)
  | _, [] => []
  | prev, y :: ys => some ((y - prev) / prev) :: pctChangeFrom y ys

/-- `PerformanceMetrics.calculate_returns` (performance_metrics.py
lines 17-27): `equity.pct_change()` — a series of the same length as the
equity curve whose position 0 is NaN (`none`), there being no prior
value. -/
def calculate_returns : List ℚ → List (Option ℚ)
  | [] => []
  | x :: xs => none :: pctChangeFrom x xs

/-- The arithmetic mean of a list of rationals. -/
def listMean (l : List ℚ) : ℚ := l.sum / l.length

/-- The sample variance with denominator `n − 1` (ddof = 1), the square
of pandas `Series.std` on two or more observations; `seriesStd` guards
the fewer-than-two case, where pandas yields NaN. -/
def sampleVar (l : List ℚ) : ℚ :=
  (l.map (fun x => (x - listMean l) ^ 2)).sum / ((l.length : ℚ) - 1)

/-- The non-NaN observations of a series, in order (pandas statistics
default to `skipna=True`). -/
def validObs : List (Option ℚ) → List ℚ
  | [] => []
  | none :: rest => validObs rest
  | some x :: rest => x :: validObs rest

/-- pandas `Series.mean` (skipna): the mean of the non-NaN observations,
NaN when there are none. -/
def seriesMean (l : List (Option ℚ)) : Option ℚ :=
  if (validObs l).length = 0 then none else some (listMean (validObs l))

/-- pandas `Series.std` (skipna, ddof = 1), parametrized by the square
root: NaN with fewer than two non-NaN observations (the `n − 1`
denominator vanishes), otherwise the square root of the sample
variance. -/
def seriesStd (sqrtQ : ℚ → ℚ) (l : List (Option ℚ)) : Option ℚ :=
  if (validObs l).length < 2 then none else some (sqrtQ (sampleVar (validObs l)))

/-- `PerformanceMetrics.calculate_sharpe_ratio` (performance_metrics.py
lines 29-47) over a NaN-aware returns series, with the square-root
function as a parameter (`np.sqrt` has no exact rational counterpart).
The Python guard `returns.std() == 0` is false when the std is NaN, so
it compares against `some 0`; past the guard, the result
`sqrt(P) × excess.mean() / std` is NaN (`none`) as soon as the mean or
the std is NaN. -/
def calculate_sharpe_ratio (sqrtQ : ℚ → ℚ) (returns : List (Option ℚ))
    (risk_free_rate : ℚ) (periods_per_year : ℚ) : Option ℚ :=
  if returns.length = 0 ∨ seriesStd sqrtQ returns = some 0 then some 0
  else
    let excess_returns := returns.map (Option.map
      (fun r => r - risk_free_rate / periods_per_year))
    match seriesMean excess_returns, seriesStd sqrtQ returns with
    | some m, some s => some (sqrtQ periods_per_year * m / s)
    | _, _ => none

/- ### Helper lemmas on the association-list position map -/

theorem posGet_posSet_same (ps : List (String × ℚ)) (s : String) (q : ℚ) :
    posGet (posSet ps s q) s = q := by
  induction ps with
  | nil => simp [posSet, posGet]
  | cons kv rest ih =>
      obtain ⟨k, v⟩ := kv
      by_cases h : k = s
      · simp [posSet, posGet, h]
      · simp [posSet, posGet, h, ih]

theorem posGet_posSet_other (ps : List (String × ℚ)) (s s' : String) (q : ℚ)
    (h : s' ≠ s) : posGet (posSet ps s q) s' = posGet ps s' := by
  have hss : s ≠ s' := Ne.symm h
  induction ps with
  | nil => simp [posSet, posGet, hss]
  | cons kv rest ih =>
      obtain ⟨k, v⟩ := kv
      by_cases hk : k = s
      · subst hk
        simp [posSet, posGet, hss]
      · simp [posSet, posGet, hk, ih]

/- ### Claims C1 and C2: cash conservation, rejection conditions and atomicity -/

/-- C1.  Cash conservation of the ledger: a successful buy debits exactly
trade value plus commission, a successful sell credits exactly trade value
minus commission; with initial capital 100000 and commission rate 0.001 a
single buy of 1 unit at price 50000 leaves cash 49950 and position 1. -/
theorem C1_cash_conservation (p : Portfolio) (t : Nat) (sym : String)
    (price quantity : ℚ) :
    ((p.execute_trade t sym "buy" price quantity).1 = true →
      (p.execute_trade t sym "buy" price quantity).2.cash =
        p.cash - (price * quantity + price * quantity * p.commission_rate)) ∧
    ((p.execute_trade t sym "sell" price quantity).1 = true →
      (p.execute_trade t sym "sell" price quantity).2.cash =
        p.cash + (price * quantity - price * quantity * p.commission_rate)) ∧
    (((mkPortfolio 100000 (1/1000)).execute_trade 0 "BTC" "buy" 50000 1).2.cash = 49950 ∧
      posGet ((mkPortfolio 100000 (1/1000)).execute_trade 0 "BTC" "buy" 50000 1).2.positions
        "BTC" = 1) := by
  refine ⟨?_, ?_, ?_⟩
  · intro h
    by_cases hc : price * quantity + price * quantity * p.commission_rate > p.cash
    · simp [Portfolio.execute_trade, hc] at h
    · simp [Portfolio.execute_trade, hc]
  · intro h
    by_cases hc : posGet p.positions sym < quantity
    · simp [Portfolio.execute_trade, hc] at h
    · simp [Portfolio.execute_trade, hc]
  · constructor
    · norm_num [Portfolio.execute_trade, mkPortfolio]
    · norm_num [Portfolio.execute_trade, mkPortfolio, posGet, posSet]

/-- Witness for C1 at concrete inputs: a buy of 2 units at price 10 with
commission rate 1/10 out of 100 cash succeeds and debits 22. -/
theorem C1_cash_conservation_witness :
    ((mkPortfolio 100 (1/10)).execute_trade 0 "S" "buy" 10 2).1 = true ∧
    ((mkPortfolio 100 (1/10)).execute_trade 0 "S" "buy" 10 2).2.cash =
      100 - (10 * 2 + 10 * 2 * (1/10)) :=
  ⟨by norm_num [Portfolio.execute_trade, mkPortfolio],
    (C1_cash_conservation (mkPortfolio 100 (1/10)) 0 "S" 10 2).1
      (by norm_num [Portfolio.execute_trade, mkPortfolio])⟩

/-- C2.  Rejection conditions and atomicity of `execute_trade`: a buy
fails exactly when cash is less than trade value plus commission, a sell
fails exactly when the current position is less than the quantity, and a
failed call changes neither cash, nor any position, nor the trade log; in
particular selling 2 while holding 1 fails and leaves the state unchanged. -/
theorem C2_rejection_atomicity (p : Portfolio) (t : Nat) (sym : String)
    (price quantity : ℚ) :
    ((p.execute_trade t sym "buy" price quantity).1 = false ↔
      p.cash < price * quantity + price * quantity * p.commission_rate) ∧
    ((p.execute_trade t sym "sell" price quantity).1 = false ↔
      posGet p.positions sym < quantity) ∧
    (∀ side : String, (p.execute_trade t sym side price quantity).1 = false →
      (p.execute_trade t sym side price quantity).2.cash = p.cash ∧
      (∀ s, posGet (p.execute_trade t sym side price quantity).2.positions s =
        posGet p.positions s) ∧
      (p.execute_trade t sym side price quantity).2.trades = p.trades) ∧
    (∀ q : Portfolio, posGet q.positions sym = 1 →
      (q.execute_trade t sym "sell" price 2).1 = false ∧
      (q.execute_trade t sym "sell" price 2).2 = q) := by
  refine ⟨?_, ?_, ?_, ?_⟩
  · by_cases hc : price * quantity + price * quantity * p.commission_rate > p.cash
    · simp [Portfolio.execute_trade, hc]
      try linarith
    · simp [Portfolio.execute_trade, hc]
      try linarith
  · by_cases hc : posGet p.positions sym < quantity
    · simp [Portfolio.execute_trade, hc]
    · simp [Portfolio.execute_trade, hc]
  · intro side h
    by_cases hb : side = "buy"
    · subst hb
      by_cases hc : price * quantity + price * quantity * p.commission_rate > p.cash
      · simp [Portfolio.execute_trade, hc]
      · simp [Portfolio.execute_trade, hc] at h
    · by_cases hs : side = "sell"
      · subst hs
        by_cases hc : posGet p.positions sym < quantity
        · simp [Portfolio.execute_trade, hb, hc]
        · simp [Portfolio.execute_trade, hb, hc] at h
      · simp [Portfolio.execute_trade, hb, hs] at h
  · intro q hq
    have hc : posGet q.positions sym < 2 := by rw [hq]; norm_num
    constructor
    · simp [Portfolio.execute_trade, hc]
    · simp [Portfolio.execute_trade, hc]

/-- Witness for C2 at concrete inputs: on a fresh portfolio with 100 cash,
a buy of 2 units at price 100 is rejected because 200 + 20 > 100. -/
theorem C2_rejection_atomicity_witness :
    (((mkPortfolio 100 (1/10)).execute_trade 0 "S" "buy" 100 2).1 = false ↔
      (100 : ℚ) < 100 * 2 + 100 * 2 * (1/10)) ∧
    (((mkPortfolio 100 (1/10)).execute_trade 0 "S" "buy" 100 2).1 = false) :=
  ⟨(C2_rejection_atomicity (mkPortfolio 100 (1/10)) 0 "S" 100 2).1,
    ((C2_rejection_atomicity (mkPortfolio 100 (1/10)) 0 "S" 100 2).1).mpr
      (by norm_num [mkPortfolio])⟩

/- ### Claim C10: frame condition of execute_trade -/

/-- C10.  Frame condition: a call to `execute_trade` on symbol `sym`
leaves the position of every other symbol, the initial capital and the
commission rate unchanged, for every side and regardless of success. -/
theorem C10_frame_condition (p : Portfolio) (t : Nat) (sym side : String)
    (price quantity : ℚ) :
    (∀ s, s ≠ sym →
      posGet (p.execute_trade t sym side price quantity).2.positions s =
        posGet p.positions s) ∧
    (p.execute_trade t sym side price quantity).2.initial_capital = p.initial_capital ∧
    (p.execute_trade t sym side price quantity).2.commission_rate = p.commission_rate := by
  by_cases hb : side = "buy"
  · subst hb
    by_cases hc : price * quantity + price * quantity * p.commission_rate > p.cash
    · simp [Portfolio.execute_trade, hc]
    · refine ⟨?_, ?_, ?_⟩
      · intro s hs
        simp [Portfolio.execute_trade, hc, posGet_posSet_other _ _ _ _ hs]
      · simp [Portfolio.execute_trade, hc]
      · simp [Portfolio.execute_trade, hc]
  · by_cases hsell : side = "sell"
    · subst hsell
      by_cases hc : posGet p.positions sym < quantity
      · simp [Portfolio.execute_trade, hb, hc]
      · refine ⟨?_, ?_, ?_⟩
        · intro s hs
          simp [Portfolio.execute_trade, hb, hc, posGet_posSet_other _ _ _ _ hs]
        · simp [Portfolio.execute_trade, hb, hc]
        · simp [Portfolio.execute_trade, hb, hc]
    · simp [Portfolio.execute_trade, hb, hsell]

/-- Witness for C10 at concrete inputs: buying symbol "S" does not touch
the position of symbol "T". -/
theorem C10_frame_condition_witness :
    posGet ((mkPortfolio 100 0).execute_trade 0 "S" "buy" 1 1).2.positions "T" =
      posGet (mkPortfolio 100 0).positions "T" :=
  (C10_frame_condition (mkPortfolio 100 0) 0 "S" "buy" 1 1).1 "T" (by decide)

/- ### Claim C8: unrecognized side appends a trade but mutates nothing -/

/-- C8.  A call whose side is neither `'buy'` nor `'sell'` returns `True`
and appends a trade record while leaving cash and every position
unchanged, so a trade record can exist that corresponds to no cash or
position mutation. -/
theorem C8_unknown_side (p : Portfolio) (t : Nat) (sym side : String)
    (price quantity : ℚ) (hb : side ≠ "buy") (hs : side ≠ "sell") :
    (p.execute_trade t sym side price quantity).1 = true ∧
    (p.execute_trade t sym side price quantity).2.cash = p.cash ∧
    (∀ s, posGet (p.execute_trade t sym side price quantity).2.positions s =
      posGet p.positions s) ∧
    (p.execute_trade t sym side price quantity).2.trades = p.trades ++
      [{ timestamp := t, symbol := sym, side := side, price := price,
         quantity := quantity, commission := price * quantity * p.commission_rate,
         cash := p.cash }] := by
  simp [Portfolio.execute_trade, hb, hs]

/-- Witness for C8 at a concrete input: side `"hold"` on a fresh
portfolio returns `True` and leaves cash at 100. -/
theorem C8_unknown_side_witness :
    ((mkPortfolio 100 0).execute_trade 0 "S" "hold" 1 1).1 = true ∧
    ((mkPortfolio 100 0).execute_trade 0 "S" "hold" 1 1).2.cash =
      (mkPortfolio 100 0).cash :=
  ⟨(C8_unknown_side (mkPortfolio 100 0) 0 "S" "hold" 1 1 (by decide) (by decide)).1,
    (C8_unknown_side (mkPortfolio 100 0) 0 "S" "hold" 1 1 (by decide) (by decide)).2.1⟩

/- ### Claim C3: non-negativity invariant over call sequences -/

/-- One `execute_trade` call preserves non-negativity of cash and of all
positions, provided the commission rate is below 1, the price and
quantity are positive, and the side is buy or sell. -/
theorem execute_trade_nonneg (p : Portfolio) (t : Nat) (sym side : String)
    (price quantity : ℚ) (hrate : p.commission_rate < 1)
    (hcash : 0 ≤ p.cash) (hpos : ∀ s, 0 ≤ posGet p.positions s)
    (hside : side = "buy" ∨ side = "sell") (hp : 0 < price) (hq : 0 < quantity) :
    0 ≤ (p.execute_trade t sym side price quantity).2.cash ∧
    ∀ s, 0 ≤ posGet (p.execute_trade t sym side price quantity).2.positions s := by
  rcases hside with hb | hs
  · subst hb
    by_cases hc : price * quantity + price * quantity * p.commission_rate > p.cash
    · exact ⟨by simpa [Portfolio.execute_trade, hc] using hcash,
        fun s => by simpa [Portfolio.execute_trade, hc] using hpos s⟩
    · have hle : price * quantity + price * quantity * p.commission_rate ≤ p.cash :=
        not_lt.mp hc
      constructor
      · simp [Portfolio.execute_trade, hc]
        linarith
      · intro s
        by_cases hsym : s = sym
        · subst hsym
          have := hpos s
          simp [Portfolio.execute_trade, hc, posGet_posSet_same]
          linarith
        · simp [Portfolio.execute_trade, hc, posGet_posSet_other _ _ _ _ hsym]
          exact hpos s
  · subst hs
    by_cases hc : posGet p.positions sym < quantity
    · exact ⟨by simpa [Portfolio.execute_trade, hc] using hcash,
        fun s => by simpa [Portfolio.execute_trade, hc] using hpos s⟩
    · have hle : quantity ≤ posGet p.positions sym := not_lt.mp hc
      have htv : 0 < price * quantity := mul_pos hp hq
      constructor
      · simp [Portfolio.execute_trade, hc]
        nlinarith
      · intro s
        by_cases hsym : s = sym
        · subst hsym
          simp [Portfolio.execute_trade, hc, posGet_posSet_same]
          linarith
        · simp [Portfolio.execute_trade, hc, posGet_posSet_other _ _ _ _ hsym]
          exact hpos s

/-- `execute_trade` never changes the commission rate. -/
theorem execute_trade_commission_rate (p : Portfolio) (t : Nat) (sym side : String)
    (price quantity : ℚ) :
    (p.execute_trade t sym side price quantity).2.commission_rate = p.commission_rate := by
  by_cases hb : side = "buy"
  · subst hb
    by_cases hc : price * quantity + price * quantity * p.commission_rate > p.cash
    · simp [Portfolio.execute_trade, hc]
    · simp [Portfolio.execute_trade, hc]
  · by_cases hs : side = "sell"
    · subst hs
      by_cases hc : posGet p.positions sym < quantity
      · simp [Portfolio.execute_trade, hb, hc]
      · simp [Portfolio.execute_trade, hb, hc]
    · simp [Portfolio.execute_trade, hb, hs]

/-- Non-negativity is preserved by any sequence of calls. -/
theorem applyTrades_nonneg (rs : List TradeReq) :
    ∀ p : Portfolio, p.commission_rate < 1 → 0 ≤ p.cash →
      (∀ s, 0 ≤ posGet p.positions s) → (∀ r ∈ rs, r.wellFormed) →
      0 ≤ (applyTrades p rs).cash ∧ ∀ s, 0 ≤ posGet (applyTrades p rs).positions s := by
  induction rs with
  | nil => intro p _ hcash hpos _; exact ⟨hcash, hpos⟩
  | cons r rest ih =>
      intro p hrate hcash hpos hwf
      obtain ⟨hside, hp, hq⟩ := hwf r (List.mem_cons_self r rest)
      obtain ⟨hcash', hpos'⟩ :=
        execute_trade_nonneg p r.timestamp r.symbol r.side r.price r.quantity
          hrate hcash hpos hside hp hq
      have hrate' : (p.execute_trade r.timestamp r.symbol r.side r.price
          r.quantity).2.commission_rate < 1 := by
        rw [execute_trade_commission_rate]; exact hrate
      exact ih _ hrate' hcash' hpos' (fun x hx => hwf x (List.mem_cons_of_mem r hx))

/-- C3.  Non-negativity invariant: starting from a fresh portfolio with
non-negative capital, empty positions and commission rate in [0,1), for
every sequence of `execute_trade` calls with side buy or sell, positive
price and positive quantity, the cash balance and the position of every
symbol are non-negative after every call (i.e. after every initial
segment of the sequence). -/
theorem C3_nonneg_invariant (cap rate : ℚ) (hcap : 0 ≤ cap)
    (hrate0 : 0 ≤ rate) (hrate1 : rate < 1) (rs : List TradeReq)
    (hwf : ∀ r ∈ rs, r.wellFormed) (n : Nat) :
    0 ≤ (applyTrades (mkPortfolio cap rate) (rs.take n)).cash ∧
    ∀ s, 0 ≤ posGet (applyTrades (mkPortfolio cap rate) (rs.take n)).positions s := by
  refine applyTrades_nonneg (rs.take n) (mkPortfolio cap rate) hrate1 hcap
    (fun s => by simp [mkPortfolio, posGet]) ?_
  exact fun r hr => hwf r (List.take_subset n rs hr)

/-- Witness for C3 at concrete inputs: after a buy of 1 at price 10 and a
sell of 1 at price 10 with rate 1/10 starting from 100, cash and the
position of "S" are non-negative. -/
theorem C3_nonneg_invariant_witness :
    0 ≤ (applyTrades (mkPortfolio 100 (1/10))
      (List.take 2 ([⟨0, "S", "buy", 10, 1⟩, ⟨1, "S", "sell", 10, 1⟩] : List TradeReq))).cash ∧
    ∀ s, 0 ≤ posGet (applyTrades (mkPortfolio 100 (1/10))
      (List.take 2 ([⟨0, "S", "buy", 10, 1⟩, ⟨1, "S", "sell", 10, 1⟩] :
        List TradeReq))).positions s :=
  C3_nonneg_invariant 100 (1/10) (by norm_num) (by norm_num) (by norm_num) _
    (by
      intro r hr
      simp only [List.mem_cons, List.not_mem_nil, or_false] at hr
      rcases hr with h | h <;> subst h
      · exact ⟨Or.inl rfl, by norm_num, by norm_num⟩
      · exact ⟨Or.inr rfl, by norm_num, by norm_num⟩) 2

/- ### Helper lemmas on list folds and positional indexing -/

theorem foldl_min_mem (xs : List ℚ) : ∀ a : ℚ, xs.foldl min a = a ∨ xs.foldl min a ∈ xs := by
  induction xs with
  | nil => exact fun a => Or.inl rfl
  | cons y ys ih =>
      intro a
      rw [List.foldl_cons]
      rcases ih (min a y) with h | h
      · rcases min_choice a y with hm | hm
        · exact Or.inl (by rw [h, hm])
        · exact Or.inr (by rw [h, hm]; exact List.mem_cons_self y ys)
      · exact Or.inr (List.mem_cons_of_mem y h)

theorem foldl_min_le_init (xs : List ℚ) : ∀ a : ℚ, xs.foldl min a ≤ a := by
  induction xs with
  | nil => exact fun a => le_refl a
  | cons y ys ih =>
      intro a
      rw [List.foldl_cons]
      exact (ih (min a y)).trans (min_le_left a y)

theorem foldl_min_le_mem (xs : List ℚ) : ∀ a x : ℚ, x ∈ xs → xs.foldl min a ≤ x := by
  induction xs with
  | nil => intro a x hx; cases hx
  | cons y ys ih =>
      intro a x hx
      rw [List.foldl_cons]
      rcases List.mem_cons.mp hx with rfl | hx
      · exact (foldl_min_le_init ys (min a x)).trans (min_le_right a x)
      · exact ih (min a y) x hx

theorem listMin_mem (l : List ℚ) (h : l ≠ []) : listMin l ∈ l := by
  cases l with
  | nil => exact absurd rfl h
  | cons x xs =>
      rcases foldl_min_mem xs x with h1 | h1
      · show xs.foldl min x ∈ x :: xs
        rw [h1]; exact List.mem_cons_self x xs
      · exact List.mem_cons_of_mem x h1

theorem listMin_le (l : List ℚ) (x : ℚ) (hx : x ∈ l) : listMin l ≤ x := by
  cases l with
  | nil => cases hx
  | cons y ys =>
      rcases List.mem_cons.mp hx with rfl | h
      · exact foldl_min_le_init ys x
      · exact foldl_min_le_mem ys y x h

theorem foldl_max_mem (xs : List ℚ) : ∀ a : ℚ, xs.foldl max a = a ∨ xs.foldl max a ∈ xs := by
  induction xs with
  | nil => exact fun a => Or.inl rfl
  | cons y ys ih =>
      intro a
      rw [List.foldl_cons]
      rcases ih (max a y) with h | h
      · rcases max_choice a y with hm | hm
        · exact Or.inl (by rw [h, hm])
        · exact Or.inr (by rw [h, hm]; exact List.mem_cons_self y ys)
      · exact Or.inr (List.mem_cons_of_mem y h)

theorem le_foldl_max_init (xs : List ℚ) : ∀ a : ℚ, a ≤ xs.foldl max a := by
  induction xs with
  | nil => exact fun a => le_refl a
  | cons y ys ih =>
      intro a
      rw [List.foldl_cons]
      exact (le_max_left a y).trans (ih (max a y))

theorem le_foldl_max_mem (xs : List ℚ) : ∀ a x : ℚ, x ∈ xs → x ≤ xs.foldl max a := by
  induction xs with
  | nil => intro a x hx; cases hx
  | cons y ys ih =>
      intro a x hx
      rw [List.foldl_cons]
      rcases List.mem_cons.mp hx with rfl | hx
      · exact (le_max_right a x).trans (le_foldl_max_init ys (max a x))
      · exact ih (max a y) x hx

theorem listMax_mem (l : List ℚ) (h : l ≠ []) : listMax l ∈ l := by
  cases l with
  | nil => exact absurd rfl h
  | cons x xs =>
      rcases foldl_max_mem xs x with h1 | h1
      · show xs.foldl max x ∈ x :: xs
        rw [h1]; exact List.mem_cons_self x xs
      · exact List.mem_cons_of_mem x h1

theorem le_listMax (l : List ℚ) (x : ℚ) (hx : x ∈ l) : x ≤ listMax l := by
  cases l with
  | nil => cases hx
  | cons y ys =>
      rcases List.mem_cons.mp hx with rfl | h
      · exact le_foldl_max_init ys x
      · exact le_foldl_max_mem ys y x h

theorem firstIdx_lt_length (a : ℚ) (l : List ℚ) (h : a ∈ l) :
    firstIdx a l < l.length := by
  induction l with
  | nil => cases h
  | cons x xs ih =>
      by_cases hx : x = a
      · simp [firstIdx, hx]
      · rcases List.mem_cons.mp h with h1 | h1
        · exact absurd h1.symm hx
        · simpa [firstIdx, hx, Nat.succ_lt_succ_iff] using ih h1

theorem getD_firstIdx (a : ℚ) (l : List ℚ) (h : a ∈ l) :
    l.getD (firstIdx a l) 0 = a := by
  induction l with
  | nil => cases h
  | cons x xs ih =>
      by_cases hx : x = a
      · simp [firstIdx, hx]
      · rcases List.mem_cons.mp h with h1 | h1
        · exact absurd h1.symm hx
        · simpa [firstIdx, hx] using ih h1

theorem getD_lt_firstIdx (a : ℚ) (l : List ℚ) :
    ∀ j, j < firstIdx a l → l.getD j 0 ≠ a := by
  induction l with
  | nil => intro j hj; simp [firstIdx] at hj
  | cons x xs ih =>
      intro j hj
      by_cases hx : x = a
      · simp [firstIdx, hx] at hj
      · cases j with
        | zero => simpa using hx
        | succ n =>
            rw [List.getD_cons_succ]
            exact ih n (by simpa [firstIdx, hx, Nat.succ_lt_succ_iff] using hj)

theorem getD_mem_of_lt (l : List ℚ) : ∀ i, i < l.length → l.getD i 0 ∈ l := by
  induction l with
  | nil => intro i hi; simp at hi
  | cons x xs ih =>
      intro i hi
      cases i with
      | zero => simp
      | succ n =>
          rw [List.getD_cons_succ]
          exact List.mem_cons_of_mem x (ih n (by simpa using hi))

theorem zipWith_self_map (f : ℚ → ℚ → ℚ) (l : List ℚ) :
    List.zipWith f l l = l.map (fun a => f a a) := by
  induction l with
  | nil => rfl
  | cons x xs ih => simp [ih]

/- ### Claim C7: Sharpe ratio guard -/

theorem pctChangeFrom_const (c : ℚ) (k : Nat) :
    pctChangeFrom c (List.replicate k c) = List.replicate k (some 0) := by
  induction k with
  | zero => rfl
  | succ n ih => simp [List.replicate_succ, pctChangeFrom, ih]

theorem sampleVar_replicate_zero (k : Nat) :
    sampleVar (List.replicate k (0 : ℚ)) = 0 := by
  simp [sampleVar, listMean, List.map_replicate, List.sum_replicate]

theorem validObs_replicate_some (k : Nat) (c : ℚ) :
    validObs (List.replicate k (some c)) = List.replicate k c := by
  induction k with
  | zero => rfl
  | succ n ih => simp [List.replicate_succ, validObs, ih]

/-- Counterexample refuting C7 as stated: on the two-point constant
equity curve [100000, 100000] the returns series is [NaN, 0], its single
non-NaN observation gives a NaN standard deviation (ddof = 1), the guard
`returns.std() == 0` is false against NaN, and the program returns NaN —
not 0.0. -/
theorem C7_sharpe_guard_counterexample :
    calculate_sharpe_ratio (fun x => x) (calculate_returns [100000, 100000]) 0 252
      = none := by
  norm_num [calculate_sharpe_ratio, calculate_returns, pctChangeFrom, seriesStd,
    seriesMean, validObs, sampleVar, listMean]
  exact fun h => nomatch h

/-- C7 (amended).  Sharpe ratio guard: `calculate_sharpe_ratio` returns
0.0 whenever the returns series has zero length or zero standard
deviation — the latter meaning at least two non-NaN observations with
zero sample variance, since the std of fewer than two observations is
NaN, which compares unequal to 0 and lets the NaN propagate to the
result; in particular, a constant equity curve of at least three points
at a non-zero level has zero-variance returns and Sharpe ratio 0.0, not
NaN. -/
theorem C7_sharpe_guard_amended (sqrtQ : ℚ → ℚ)
    (hsqrt : ∀ x : ℚ, sqrtQ x = 0 ↔ x = 0) (rf P : ℚ) :
    (∀ returns : List (Option ℚ),
      (returns.length = 0 ∨
        (2 ≤ (validObs returns).length ∧ sampleVar (validObs returns) = 0)) →
      calculate_sharpe_ratio sqrtQ returns rf P = some 0) ∧
    ∀ (n : Nat) (c : ℚ), 3 ≤ n → c ≠ 0 →
      calculate_sharpe_ratio sqrtQ (calculate_returns (List.replicate n c)) rf P
        = some 0 := by
  have main : ∀ returns : List (Option ℚ),
      (returns.length = 0 ∨
        (2 ≤ (validObs returns).length ∧ sampleVar (validObs returns) = 0)) →
      calculate_sharpe_ratio sqrtQ returns rf P = some 0 := by
    intro returns h
    rcases h with h | ⟨h2, hv⟩
    · simp [calculate_sharpe_ratio, h]
    · have hstd : seriesStd sqrtQ returns = some 0 := by
        have hlt : ¬ (validObs returns).length < 2 := by omega
        simp [seriesStd, hlt, hv, (hsqrt 0).mpr rfl]
      simp [calculate_sharpe_ratio, hstd]
  refine ⟨main, ?_⟩
  intro n c hn _
  obtain ⟨k, rfl⟩ : ∃ k, n = k + 1 := ⟨n - 1, by omega⟩
  have hret : calculate_returns (List.replicate (k + 1) c) =
      none :: List.replicate k (some 0) := by
    simp [List.replicate_succ, calculate_returns, pctChangeFrom_const]
  have hobs : validObs (calculate_returns (List.replicate (k + 1) c)) =
      List.replicate k 0 := by
    rw [hret]
    show validObs (List.replicate k (some 0)) = List.replicate k 0
    exact validObs_replicate_some k 0
  refine main _ (Or.inr ⟨?_, ?_⟩)
  · rw [hobs, List.length_replicate]
    omega
  · rw [hobs]
    exact sampleVar_replicate_zero k

/-- Witness for the amended C7 at concrete inputs: the identity as the
square root, a constant equity curve of three points at 100000,
risk-free rate 0, 252 periods per year. -/
theorem C7_sharpe_guard_amended_witness :
    calculate_sharpe_ratio (fun x => x)
      (calculate_returns (List.replicate 3 100000)) 0 252 = some 0 :=
  (C7_sharpe_guard_amended (fun x => x) (fun _ => Iff.rfl) 0 252).2 3 100000
    (by norm_num) (by norm_num)

/- ### Claim C6: drawdown bound -/

theorem zipWith_dd_bounds (l : List ℚ) :
    ∀ m : ℚ, 0 < m → (∀ x ∈ l, 0 < x) →
      ∀ d ∈ List.zipWith (fun e mm => (e - mm) / mm) l (runMaxAux m l),
        -1 ≤ d ∧ d ≤ 0 := by
  induction l with
  | nil => intro m _ _ d hd; simp at hd
  | cons x xs ih =>
      intro m hm hl d hd
      have hx : 0 < x := hl x (List.mem_cons_self x xs)
      have hmx : 0 < max m x := lt_max_of_lt_right hx
      simp only [runMaxAux, List.zipWith_cons_cons, List.mem_cons] at hd
      rcases hd with rfl | hd
      · constructor
        · rw [le_div_iff hmx]
          linarith [le_max_right m x]
        · rw [div_le_iff hmx]
          linarith [le_max_right m x]
      · exact ih (max m x) hmx (fun y hy => hl y (List.mem_cons_of_mem x hy)) d hd

theorem runMaxAux_of_chain (l : List ℚ) :
    ∀ m : ℚ, List.Chain (· ≤ ·) m l → runMaxAux m l = l := by
  induction l with
  | nil => intro m _; rfl
  | cons x xs ih =>
      intro m hc
      cases hc with
      | cons h1 h2 => simp [runMaxAux, max_eq_right h1, ih x h2]

/-- C6.  Drawdown bound: for an equity curve of strictly positive values
the max drawdown lies in [−1, 0], and it equals 0 whenever the equity
series is non-decreasing throughout. -/
theorem C6_drawdown_bound (equity : List ℚ) (hpos : ∀ x ∈ equity, 0 < x) :
    -1 ≤ (calculate_max_drawdown equity).1 ∧
    (calculate_max_drawdown equity).1 ≤ 0 ∧
    (List.Chain' (· ≤ ·) equity → (calculate_max_drawdown equity).1 = 0) := by
  cases equity with
  | nil =>
      refine ⟨by norm_num [calculate_max_drawdown], by norm_num [calculate_max_drawdown],
        fun _ => by norm_num [calculate_max_drawdown]⟩
  | cons x xs =>
      have hx : 0 < x := hpos x (List.mem_cons_self x xs)
      have hfst : (calculate_max_drawdown (x :: xs)).1 =
          listMin (List.zipWith (fun e mm => (e - mm) / mm) (x :: xs)
            (runningMax (x :: xs))) := rfl
      have hne : List.zipWith (fun e mm => (e - mm) / mm) (x :: xs)
          (runningMax (x :: xs)) ≠ [] := by
        simp [runningMax]
      have hmem : ∀ d ∈ List.zipWith (fun e mm => (e - mm) / mm) (x :: xs)
          (runningMax (x :: xs)), -1 ≤ d ∧ d ≤ 0 := by
        intro d hd
        simp only [runningMax, List.zipWith_cons_cons, List.mem_cons] at hd
        rcases hd with rfl | hd
        · constructor
          · rw [sub_self, zero_div]; norm_num
          · rw [sub_self, zero_div]
        · exact zipWith_dd_bounds xs x hx
            (fun y hy => hpos y (List.mem_cons_of_mem x hy)) d hd
      obtain ⟨h1, h2⟩ := hmem _ (listMin_mem _ hne)
      refine ⟨by rw [hfst]; exact h1, by rw [hfst]; exact h2, ?_⟩
      intro hch
      have hchain : List.Chain (· ≤ ·) x xs := hch
      have hrm : runningMax (x :: xs) = x :: xs := by
        simp [runningMax, runMaxAux_of_chain xs x hchain]
      rw [hfst, hrm, zipWith_self_map]
      have hmap : (x :: xs).map (fun a => (a - a) / a) =
          List.replicate (x :: xs).length (0 : ℚ) := by
        simp [List.eq_replicate_iff]
      rw [hmap]
      exact List.eq_of_mem_replicate
        (listMin_mem (List.replicate (x :: xs).length (0 : ℚ)) (by simp))

/-- Witness for C6 at a concrete input: the equity curve [2, 1, 3]. -/
theorem C6_drawdown_bound_witness :
    -1 ≤ (calculate_max_drawdown [2, 1, 3]).1 ∧
    (calculate_max_drawdown [2, 1, 3]).1 ≤ 0 ∧
    (List.Chain' (· ≤ ·) ([2, 1, 3] : List ℚ) →
      (calculate_max_drawdown [2, 1, 3]).1 = 0) :=
  C6_drawdown_bound [2, 1, 3] (by
    intro y hy
    simp only [List.mem_cons, List.not_mem_nil, or_false] at hy
    rcases hy with rfl | rfl | rfl <;> norm_num)

/- ### Claims C5 and C9: the execution loop -/

/-- `execute_trade` never touches the recorded equity curve. -/
theorem execute_trade_equity_curve (p : Portfolio) (t : Nat) (sym side : String)
    (price quantity : ℚ) :
    (p.execute_trade t sym side price quantity).2.equity_curve = p.equity_curve := by
  by_cases hb : side = "buy"
  · subst hb
    by_cases hc : price * quantity + price * quantity * p.commission_rate > p.cash
    · simp [Portfolio.execute_trade, hc]
    · simp [Portfolio.execute_trade, hc]
  · by_cases hs : side = "sell"
    · subst hs
      by_cases hc : posGet p.positions sym < quantity
      · simp [Portfolio.execute_trade, hb, hc]
      · simp [Portfolio.execute_trade, hb, hc]
    · simp [Portfolio.execute_trade, hb, hs]

/-- The signal-handling step never touches the recorded equity curve. -/
theorem processSignal_equity_curve (sym : String) (p : Portfolio) (row : SignalRow) :
    (processSignal sym p row).equity_curve = p.equity_curve := by
  by_cases h0 : row.signal = 0
  · simp [processSignal, h0]
  · by_cases h1 : row.signal = 1
    · simp [processSignal, h0, h1, execute_trade_equity_curve]
    · by_cases hm : row.signal = -1
      · by_cases hp : p.get_position sym > 0
        · simp [processSignal, h0, h1, hm, hp, execute_trade_equity_curve]
        · simp [processSignal, h0, h1, hm, hp]
      · simp [processSignal, h0, h1, hm]

/-- Each loop iteration whose index is a valid data index appends exactly
one equity point, whatever the signal did. -/
theorem runLoop_equity_length (sym : String) (data : List MarketRow)
    (signals : List SignalRow) :
    ∀ (idx : Nat) (p : Portfolio), idx + signals.length ≤ data.length →
      (runLoop sym data p idx signals).equity_curve.length =
        p.equity_curve.length + signals.length := by
  induction signals with
  | nil => intro idx p _; simp [runLoop]
  | cons row rest ih =>
      intro idx p hle
      have hidx : idx < data.length := by
        simp only [List.length_cons] at hle
        omega
      obtain ⟨d, hd⟩ : ∃ d, data.get? idx = some d := by
        cases hg : data.get? idx with
        | none =>
            have := List.get?_eq_none.mp hg
            omega
        | some d => exact ⟨d, rfl⟩
      have hd' : data[idx]? = some d := by
        rw [← List.get?_eq_getElem?]; exact hd
      have hrow : (runRow sym data p idx row).equity_curve.length =
          p.equity_curve.length + 1 := by
        simp [runRow, hd', Portfolio.record_equity, processSignal_equity_curve]
      have hrest : (idx + 1) + rest.length ≤ data.length := by
        simp only [List.length_cons] at hle
        omega
      simp only [runLoop]
      rw [ih (idx + 1) (runRow sym data p idx row) hrest, hrow]
      simp [Nat.add_assoc, Nat.add_comm 1 rest.length]

/-- C5.  Equity curve length: a run of the engine over a non-empty
loaded market-data series, with the strategy contract's one signal per
market-data row, records exactly one equity point per row — the equity
curve length equals the number of data rows, however many trades were
executed or rejected. -/
theorem C5_equity_curve_length (sym : String) (cap rate : ℚ)
    (data : List MarketRow) (signals : List SignalRow)
    (hlen : signals.length = data.length) (hne : data ≠ []) :
    (runLoop sym data (mkPortfolio cap rate) 0 signals).equity_curve.length =
      data.length := by
  have h := runLoop_equity_length sym data signals 0 (mkPortfolio cap rate) (by omega)
  simpa [mkPortfolio, hlen] using h

/-- Witness for C5 at concrete inputs: two data rows, two signals (one
rejected sell among them), equity curve of length 2. -/
theorem C5_equity_curve_length_witness :
    (runLoop "BTC" [⟨0, 10⟩, ⟨1, 12⟩] (mkPortfolio 100 0) 0
      [⟨0, -1, 10, 1⟩, ⟨1, 1, 12, 1⟩]).equity_curve.length = 2 :=
  C5_equity_curve_length "BTC" 100 0 [⟨0, 10⟩, ⟨1, 12⟩]
    [⟨0, -1, 10, 1⟩, ⟨1, 1, 12, 1⟩] rfl (by simp)

/-- C9.  Sell rejection is unreachable from the execution loop: a sell
signal is submitted only when the current position is positive, with
quantity `min(size, current_position)`, so the insufficient-position
branch of `execute_trade` is never taken for loop-issued sells and every
such call returns `True`; with no position, no sell call is made at all. -/
theorem C9_loop_sell_success (p : Portfolio) (sym : String) (row : SignalRow)
    (hsig : row.signal = -1) :
    (0 < p.get_position sym →
      (p.execute_trade row.timestamp sym "sell" row.price
        (min row.size (p.get_position sym))).1 = true ∧
      processSignal sym p row =
        (p.execute_trade row.timestamp sym "sell" row.price
          (min row.size (p.get_position sym))).2) ∧
    (¬ 0 < p.get_position sym → processSignal sym p row = p) := by
  constructor
  · intro hpos
    have hguard : ¬ posGet p.positions sym < min row.size (p.get_position sym) := by
      rw [Portfolio.get_position]
      exact not_lt.mpr (min_le_right _ _)
    constructor
    · simp [Portfolio.execute_trade, hguard]
    · have hpos' : 0 < posGet p.positions sym := hpos
      simp [processSignal, hsig, hpos', Portfolio.get_position]
  · intro hpos
    simp [processSignal, hsig, hpos]

/-- Witness for C9 at concrete inputs: a portfolio that bought 2 units of
"S"; the loop's sell of `min 1 2 = 1` unit succeeds. -/
theorem C9_loop_sell_success_witness :
    ((((mkPortfolio 100 0).execute_trade 0 "S" "buy" 10 2).2).execute_trade 5 "S" "sell" 10
      (min 1 ((((mkPortfolio 100 0).execute_trade 0 "S" "buy" 10 2).2).get_position
        "S"))).1 = true :=
  ((C9_loop_sell_success _ "S" ⟨5, -1, 10, 1⟩ rfl).1
    (by norm_num [mkPortfolio, Portfolio.execute_trade, Portfolio.get_position,
      posGet, posSet])).1

/- ### Claim C4: the max-drawdown computation -/

theorem length_runMaxAux (l : List ℚ) : ∀ m : ℚ, (runMaxAux m l).length = l.length := by
  induction l with
  | nil => intro m; rfl
  | cons x xs ih => intro m; simp [runMaxAux, ih]

theorem length_runningMax (l : List ℚ) : (runningMax l).length = l.length := by
  cases l with
  | nil => rfl
  | cons x xs => simp [runningMax, length_runMaxAux]

theorem getD_runMaxAux (l : List ℚ) : ∀ (m : ℚ) (i : Nat), i < l.length →
    (runMaxAux m l).getD i 0 = (l.take (i + 1)).foldl max m := by
  induction l with
  | nil => intro m i hi; simp at hi
  | cons x xs ih =>
      intro m i hi
      cases i with
      | zero => simp [runMaxAux]
      | succ n =>
          simp only [runMaxAux, List.getD_cons_succ, List.take_succ_cons, List.foldl_cons]
          exact ih (max m x) n (by simpa using hi)

theorem getD_runningMax (l : List ℚ) (i : Nat) (hi : i < l.length) :
    (runningMax l).getD i 0 = cumMaxAt l i := by
  cases l with
  | nil => simp at hi
  | cons x xs =>
      cases i with
      | zero => simp [runningMax, cumMaxAt, listMax]
      | succ n =>
          simp only [runningMax, List.getD_cons_succ, cumMaxAt, List.take_succ_cons, listMax]
          exact getD_runMaxAux xs x n (by simpa using hi)

theorem getD_zipWith (f : ℚ → ℚ → ℚ) (l1 : List ℚ) :
    ∀ (l2 : List ℚ) (i : Nat), i < l1.length → i < l2.length →
      (List.zipWith f l1 l2).getD i 0 = f (l1.getD i 0) (l2.getD i 0) := by
  induction l1 with
  | nil => intro l2 i hi _; simp at hi
  | cons x xs ih =>
      intro l2 i hi1 hi2
      cases l2 with
      | nil => simp at hi2
      | cons y ys =>
          cases i with
          | zero => simp
          | succ n =>
              simp only [List.zipWith_cons_cons, List.getD_cons_succ]
              exact ih ys n (by simpa using hi1) (by simpa using hi2)

theorem getD_take (l : List ℚ) : ∀ n i : Nat, i < n → (l.take n).getD i 0 = l.getD i 0 := by
  induction l with
  | nil => intro n i _; simp
  | cons x xs ih =>
      intro n i hin
      cases n with
      | zero => simp at hin
      | succ m =>
          cases i with
          | zero => simp
          | succ j =>
              simp only [List.take_succ_cons, List.getD_cons_succ]
              exact ih m j (by omega)

/-- C4.  Max drawdown: for a non-empty equity curve the returned max
drawdown is the minimum over all points of the drawdown
(equity − running_max)/running_max, attained at the trough (the first
index attaining the minimum), and the returned duration is the trough
index minus the first index holding the maximum equity at or before the
trough; the empty curve yields (0, 0); the curve
[100000, 90000, 95000, 110000] yields drawdown −1/10 and duration 1. -/
theorem C4_max_drawdown (equity : List ℚ) (h : equity ≠ []) :
    (∃ ti < equity.length,
      (calculate_max_drawdown equity).1 = ddAt equity ti ∧
      (∀ i < equity.length, (calculate_max_drawdown equity).1 ≤ ddAt equity i) ∧
      (∀ j < ti, ddAt equity j ≠ (calculate_max_drawdown equity).1) ∧
      ∃ pk ≤ ti,
        (∀ j ≤ ti, equity.getD j 0 ≤ equity.getD pk 0) ∧
        (∀ j < pk, equity.getD j 0 < equity.getD pk 0) ∧
        (calculate_max_drawdown equity).2 = ti - pk) ∧
    calculate_max_drawdown [] = (0, 0) ∧
    calculate_max_drawdown [100000, 90000, 95000, 110000] = (-(1/10), 1) := by
  refine ⟨?_, rfl, ?_⟩
  · obtain ⟨x, xs, rfl⟩ : ∃ x xs, equity = x :: xs := by
      cases equity with
      | nil => exact absurd rfl h
      | cons x xs => exact ⟨x, xs, rfl⟩
    set dd := List.zipWith (fun e m => (e - m) / m) (x :: xs) (runningMax (x :: xs))
      with hdd
    set md := listMin dd with hmd
    set ti := firstIdx md dd with hti
    set pre := (x :: xs).take (ti + 1) with hpre
    set pk := firstIdx (listMax pre) pre with hpk
    have hlen_rm : (runningMax (x :: xs)).length = (x :: xs).length :=
      length_runningMax _
    have hlen_dd : dd.length = (x :: xs).length := by
      rw [hdd, List.length_zipWith, hlen_rm, min_self]
    have hddne : dd ≠ [] := by
      rw [hdd]
      simp [runningMax]
    have hmem : md ∈ dd := listMin_mem dd hddne
    have hti_lt : ti < (x :: xs).length := by
      rw [← hlen_dd]
      exact firstIdx_lt_length md dd hmem
    have hddAt : ∀ i, i < (x :: xs).length → dd.getD i 0 = ddAt (x :: xs) i := by
      intro i hi
      have h2 : i < (runningMax (x :: xs)).length := by rw [hlen_rm]; exact hi
      rw [hdd, getD_zipWith _ _ _ i hi h2, getD_runningMax _ i hi]
      rfl
    have hres : calculate_max_drawdown (x :: xs) = (md, ti - pk) := rfl
    have hpre_len : pre.length = ti + 1 := by
      rw [hpre, List.length_take]
      omega
    have hpre_ne : pre ≠ [] := by
      rw [hpre]
      simp [List.take_succ_cons]
    have hmx_mem : listMax pre ∈ pre := listMax_mem pre hpre_ne
    have hpk_lt : pk < pre.length := firstIdx_lt_length _ pre hmx_mem
    have hpk_le : pk ≤ ti := by omega
    have hpre_getD : ∀ j, j ≤ ti → pre.getD j 0 = (x :: xs).getD j 0 := by
      intro j hj
      rw [hpre]
      exact getD_take _ _ _ (by omega)
    have hpk_val : (x :: xs).getD pk 0 = listMax pre := by
      rw [← hpre_getD pk hpk_le, hpk]
      exact getD_firstIdx _ pre hmx_mem
    refine ⟨ti, hti_lt, ?_, ?_, ?_, pk, hpk_le, ?_, ?_, ?_⟩
    · rw [hres, ← hddAt ti hti_lt, hti]
      exact (getD_firstIdx md dd hmem).symm
    · intro i hi
      rw [hres, ← hddAt i hi]
      exact listMin_le dd _ (getD_mem_of_lt dd i (by rw [hlen_dd]; exact hi))
    · intro j hj
      rw [hres, ← hddAt j (by omega)]
      exact getD_lt_firstIdx md dd j hj
    · intro j hj
      rw [← hpre_getD j hj, hpk_val]
      exact le_listMax pre _ (getD_mem_of_lt pre j (by omega))
    · intro j hj
      have hle : (x :: xs).getD j 0 ≤ (x :: xs).getD pk 0 := by
        rw [← hpre_getD j (by omega), hpk_val]
        exact le_listMax pre _ (getD_mem_of_lt pre j (by omega))
      have hne : pre.getD j 0 ≠ listMax pre := getD_lt_firstIdx _ pre j hj
      rw [← hpre_getD j (by omega), ← hpre_getD pk hpk_le, hpk_val] at *
      exact lt_of_le_of_ne hle hne
    · rw [hres]
  · norm_num [calculate_max_drawdown, runningMax, runMaxAux, listMin, listMax,
      firstIdx, max_def, min_def]

/-- Witness for C4 at a concrete input: the spec's scenario curve is
non-empty and yields max drawdown −1/10 with duration 1. -/
theorem C4_max_drawdown_witness :
    ([100000, 90000, 95000, 110000] : List ℚ) ≠ [] ∧
    calculate_max_drawdown [100000, 90000, 95000, 110000] = (-(1/10), 1) :=
  ⟨by simp, (C4_max_drawdown [100000, 90000, 95000, 110000] (by simp)).2.2⟩
